import Mathlib

set_option synthInstance.maxSize 1000

/-!
Verification of the `sanic_routing` router core (`src/sanic_routing/router.py`).

The Python source is shallowly embedded:
* Python `str` values are embedded as `List Char` (paths, methods use `String`);
* the mutable route registry (`BaseRouter`) becomes the state record
  `RouterState`, with `add`/`finalize` as state transformers and Python
  exceptions as `Except` errors;
* the matcher-source optimization pass (`BaseRouter.optimize`) is embedded
  over a `Line` record; the global `TMP = count()` counter becomes an explicit
  counter argument, and the Python `set` of insertion points becomes a
  deduplicated list (`List.dedup`) followed by the same sort the source does;
* modules of the repository that are not under `src/` (`line.py`, `route.py`,
  `tree.py`, `utils.py`, `exceptions.py`) are modelled from the spec where a
  claim needs them; each such definition carries a doc comment starting with
  `Modelled from the spec:`.
-/

/-! ## Generic helpers (embedding of Python primitives) -/

instance {ε α : Type} [DecidableEq ε] [DecidableEq α] : DecidableEq (Except ε α) := fun x y =>
  match x, y with
  | .error a, .error b =>
      if h : a = b then isTrue (by rw [h])
      else isFalse (fun he => h (Except.error.inj he))
  | .ok a, .ok b =>
      if h : a = b then isTrue (by rw [h])
      else isFalse (fun he => h (Except.ok.inj he))
  | .error _, .ok _ => isFalse (fun he => Except.noConfusion he)
  | .ok _, .error _ => isFalse (fun he => Except.noConfusion he)

/-- The character list underlying a string literal (Python `str` ↦ `List Char`). -/
def chars (s : String) : List Char := s.data

/-- Python `str.startswith`: does `s` start with the prefix `p`? -/
def startsWithL : List Char → List Char → Bool
  | _, [] => true
  | [], _ :: _ => false
  | a :: as, b :: bs => a == b && startsWithL as bs

/-- Python dict lookup on an insertion-ordered association list. -/
def lookupA {α β : Type} [DecidableEq α] : List (α × β) → α → Option β
  | [], _ => none
  | (k, v) :: rest, q => if q = k then some v else lookupA rest q

/-- Python dict assignment `d[k] = v`: replace in place if the key exists,
otherwise append (insertion order preserved). -/
def updateA {α β : Type} [DecidableEq α] : List (α × β) → α → β → List (α × β)
  | [], k, v => [(k, v)]
  | (k0, v0) :: rest, k, v =>
      if k = k0 then (k0, v) :: rest else (k0, v0) :: updateA rest k v

/-- Replace the element at an index, leaving the list unchanged when the
index is out of range (Python object mutation through a stored reference). -/
def modifyAt {α : Type} (f : α → α) : Nat → List α → List α
  | _, [] => []
  | 0, a :: rest => f a :: rest
  | n + 1, a :: rest => a :: modifyAt f n rest

/-- Python `str.strip(c)` for a single-character separator: remove every
leading and trailing occurrence of `d`. -/
def stripChar (d : Char) (l : List Char) : List Char :=
  ((l.dropWhile (fun c => c == d)).reverse.dropWhile (fun c => c == d)).reverse

/-- Python `str.split(d)` for a one-character separator: `[] ↦ [[]]`,
and every occurrence of `d` opens a new (possibly empty) segment. -/
def splitChar (d : Char) : List Char → List (List Char)
  | [] => [[]]
  | c :: rest =>
      if c == d then [] :: splitChar d rest
      else
        match splitChar d rest with
        | [] => [[c]]
        | s :: ss => (c :: s) :: ss

/-- `[lo, lo+1, ..., hi-1]` over `Int`, via explicit fuel so that it reduces
structurally. -/
def intRangeAux : Nat → Int → List Int
  | 0, _ => []
  | n + 1, lo => lo :: intRangeAux n (lo + 1)

/-- The integers from `lo` (inclusive) to `hi` (exclusive); the Python
`while idnt < prev_line.indent: ...; idnt += 1` loop enumerates exactly this. -/
def intRange (lo hi : Int) : List Int := intRangeAux (hi - lo).toNat lo

/-! ## Lines and the fast-fail optimization pass -/

/-- Modelled from the spec: the `Line` record of `line.py` (not under `src/`).
`router.py` uses exactly four attributes of it: `src` (the code text),
`indent` (the indentation level it is constructed with, e.g. `Line("...", 2)`),
`offset` (an indentation correction, `0` for every line `router.py` itself
constructs), and `render` (whether the line is kept by `_render`'s filter). -/
structure Line where
  src : List Char
  indent : Int
  offset : Int := 0
  render : Bool := true
deriving DecidableEq, Repr

/-- The line-prefix test of `optimize` (router.py lines 169-174):
`if` / `elif` / `return` / `basket`. -/
def lineKeyword (l : Line) : Bool :=
  startsWithL l.src (chars "if") || startsWithL l.src (chars "elif") ||
  startsWithL l.src (chars "return") || startsWithL l.src (chars "basket")

/-- The rejection line inserted by `optimize` (router.py lines 192-196):
`raise NotFound('{indent}//{i}')` with `i` drawn from the global `TMP`
counter, at the given indent. -/
def mkRaise (counter : Nat) (indent : Int) : Line :=
  { src := chars "raise NotFound(\x27" ++ (toString indent).data ++ chars "//"
             ++ (toString counter).data ++ chars "\x27)"
    indent := indent
    offset := 0
    render := true }

/-- The main loop of `optimize` (router.py lines 161-184): walks the lines,
maintaining `offset` and `current`, collecting the `(num, idnt)` insertion
points, and applying `line.indent += offset`.  `prev` is `src[num - 1]` of the
partially mutated Python list; for `num = 0` that is the original last line,
which the caller passes in. -/
def pass1 : Int → Int → Line → Nat → List Line → List Line × List (Nat × Int)
  | _, _, _, _, [] => ([], [])
  | offset, current, prev, num, l :: rest =>
      let offset1 := if l.indent < current && !startsWithL l.src (chars ".") then 0 else offset
      let ins := if lineKeyword l then (intRange (l.indent + 1) prev.indent).map (fun i => (num, i)) else []
      let offset2 := offset1 + l.offset
      let l2 : Line := { l with indent := l.indent + offset2 }
      let res := pass1 offset2 l2.indent l2 (num + 1) rest
      (l2 :: res.1, ins ++ res.2)

/-- The sort key order of `optimize` (router.py line 192):
`sorted(insert_at, key=lambda x: (x[0] * -1, x[1]))` — position descending,
then indent ascending. -/
def pairLE (a b : Nat × Int) : Prop := b.1 < a.1 ∨ (a.1 = b.1 ∧ a.2 ≤ b.2)

instance : DecidableRel pairLE := fun a b =>
  inferInstanceAs (Decidable (b.1 < a.1 ∨ (a.1 = b.1 ∧ a.2 ≤ b.2)))

instance : IsTotal (Nat × Int) pairLE := by
  constructor; intro a b; unfold pairLE; omega

instance : IsTrans (Nat × Int) pairLE := by
  constructor; intro a b c; unfold pairLE; omega

instance : IsAntisymm (Nat × Int) pairLE := by
  constructor
  intro a b h1 h2
  unfold pairLE at h1 h2
  have : a.1 = b.1 ∧ a.2 = b.2 := by omega
  exact Prod.ext this.1 this.2

/-- The insertion loop of `optimize` (router.py lines 192-196): for each
sorted `(num, indent)` pair, draw the next counter value and insert the
rejection line at position `num` (Python `list.insert`, which appends when
`num` is past the end — as `List.insertIdx` does at exactly the length). -/
def applyInserts : Nat → List (Nat × Int) → List Line → List Line
  | _, [], acc => acc
  | counter, (num, idnt) :: rest, acc =>
      applyInserts (counter + 1) rest (List.insertIdx num (mkRaise counter idnt) acc)

/-- `BaseRouter.optimize` (router.py lines 156-196), as a function from the
line list to the mutated line list.  `counter` is the state of the global
`TMP` counter on entry.  On the empty list the Python code would fault at
`src[-1]`; `_render` always passes a list containing at least the `def` line,
and the empty case is returned unchanged. -/
def optimize (counter : Nat) (src : List Line) : List Line :=
  match src.getLast? with
  | none => src
  | some origLast =>
      let p1 := pass1 0 0 origLast 0 src
      let endIns := (intRange 1 (p1.1.getLastD origLast).indent).map (fun i => (p1.1.length, i))
      let sorted := List.insertionSort pairLE (p1.2 ++ endIns).dedup
      applyInserts counter sorted p1.1

/-- The fixed first line of the rendered matcher (router.py line 115). -/
def defLine : Line := { src := chars "def find_route(parts, router, basket):", indent := 0 }

/-- The static-table lookup lines of the rendered matcher (router.py
lines 125-128). -/
def staticLines : List Line :=
  [ { src := chars "if parts in router.static_routes:", indent := 1 },
    { src := chars "return router.static_routes[parts], None", indent := 2 } ]

/-- The segment-count line opening the dynamic part (router.py line 136). -/
def numLine : Line := { src := chars "num = len(parts)", indent := 1 }

/-- `BaseRouter._render` (router.py lines 113-139) up to the `optimize` call:
the `def` header, the static lookup when static routes exist, and the
segment-count line followed by the rendered decision tree when dynamic routes
exist.  `treeLines` stands for `self.tree.render()` (`tree.py` is not under
`src/`). -/
def renderLines (hasStatic hasDynamic : Bool) (treeLines : List Line) : List Line :=
  [defLine]
    ++ (if hasStatic then staticLines else [])
    ++ (if hasDynamic then numLine :: treeLines else [])

/-! ## Structural fast-fail property and rendered-source shape -/

/-- A line that cannot be fallen out of: a `return` or a raised rejection. -/
def isTerminal (l : Line) : Bool :=
  startsWithL l.src (chars "return") || startsWithL l.src (chars "raise")

/-- Local fast-fail condition on two consecutive lines: whenever the second
line closes one or more scopes (its indent drops), the first line must be a
`return` or a `raise` — so the closed scope cannot be left by falling
through — and the drop must be a single level, so that every intermediate
scope also ends on such a line. -/
def pairOk (a b : Line) : Bool :=
  if b.indent < a.indent then isTerminal a && (b.indent + 1 == a.indent) else true

/-- The last line of the procedure is a `return`/`raise` at the
function-body level. -/
def lastTerminal (out : List Line) : Bool :=
  match out.getLast? with
  | some z => isTerminal z && z.indent == 1
  | none => false

/-- `pairOk` as a binary relation on lines. -/
def PairOkR (a b : Line) : Prop := pairOk a b = true

instance : DecidableRel PairOkR := fun a b =>
  inferInstanceAs (Decidable (pairOk a b = true))

/-- `pairOk` holding at every consecutive pair of the list. -/
def chainOkB : List Line → Bool
  | [] => true
  | [_] => true
  | a :: b :: rest => pairOk a b && chainOkB (b :: rest)

/-- The fast-fail guarantee, structurally: every scope exit in the line list
passes through an explicit `return`/`raise` at every level it closes, and the
whole procedure ends with a `return`/`raise` at the function-body level, so
the end of the procedure cannot be reached by falling through either. -/
def FastFail (out : List Line) : Prop :=
  chainOkB out = true ∧ lastTerminal out = true

instance (out : List Line) : Decidable (FastFail out) :=
  inferInstanceAs (Decidable (chainOkB out = true ∧ lastTerminal out = true))

/-- Per-line shape condition for rendered matcher lines: `Line` objects are
constructed with the default `offset`, i.e. `0`. -/
def lineOk (l : Line) : Bool := l.offset == 0

/-- Modelled from the spec: shape of a dedent in the source rendered by
`tree.render()` (`tree.py` is not under `src/`).  A scope is only closed
right after its leaf `return` (§4.2: "Each leaf corresponds to exactly one
Route"), and a dedent of more than one level only lands on a branch or leaf
line — one starting with `if`/`elif`/`return`/`basket` (§4.3, §9: every other
rendered line merely continues its own scope). -/
def dedentOk (a b : Line) : Bool :=
  if b.indent < a.indent then
    startsWithL a.src (chars "return") && (b.indent + 1 == a.indent || lineKeyword b)
  else true

/-- The shape hypothesis over a whole line list: every line has offset `0`
and every consecutive pair satisfies `dedentOk`. -/
def shapeOk : List Line → Bool
  | [] => true
  | [a] => lineOk a
  | a :: b :: rest => lineOk a && dedentOk a b && shapeOk (b :: rest)

/-- Modelled from the spec: the rendered decision tree ends with the deepest
leaf `return` of the last branch, inside the function body (indent ≥ 1). -/
def lastRet (l : List Line) : Bool :=
  match l.getLast? with
  | some a => startsWithL a.src (chars "return") && decide (1 ≤ a.indent)
  | none => false

/-- Well-shaped `tree.render()` output: nonempty, offset-free, dedents of the
`dedentOk` form when read after the `num = len(parts)` line, and ending in a
leaf `return`. -/
def treeShape (treeLines : List Line) : Bool :=
  shapeOk (numLine :: treeLines) && lastRet treeLines

/-! ## Specification-level decomposition of the insertion set -/

/-- Insertion points contributed by one line (`optimize` lines 169-181):
if the line opens with one of the four keywords, a rejection is requested at
every indent strictly between the line's own indent and the previous line's. -/
def groupFor (num : Nat) (p a : Line) : List (Nat × Int) :=
  if lineKeyword a then (intRange (a.indent + 1) p.indent).map (fun i => (num, i)) else []

/-- All per-line insertion groups, in position order, threading the previous
line. -/
def groupsFrom : Nat → Line → List Line → List (List (Nat × Int))
  | _, _, [] => []
  | n, p, a :: rest => groupFor n p a :: groupsFrom (n + 1) a rest

/-- The end-of-procedure insertion group (`optimize` lines 186-190):
rejections at indents `1, ..., last.indent - 1`, positioned after the last
line. -/
def endGroupFor (len : Nat) (lastIndent : Int) : List (Nat × Int) :=
  (intRange 1 lastIndent).map (fun i => (len, i))

/-- The full insertion set in the order `sorted(...)` produces: position
descending (end group first), indent ascending within a position. -/
def targetIns (p : Line) (src : List Line) : List (Nat × Int) :=
  endGroupFor src.length ((src.getLastD p).indent) ++ ((groupsFrom 0 p src).reverse).flatten

/-- Shift all positions down by one (peeling the head line off the list). -/
def predP (l : List (Nat × Int)) : List (Nat × Int) := l.map (fun q => (q.1 - 1, q.2))

/-- The lines produced by inserting a run of position-`0` pairs in front of a
block: each pair is prepended in turn, so ascending input indents come out as
a descending run of rejection lines. -/
def revRaises : Nat → List (Nat × Int) → List Line
  | _, [] => []
  | counter, (_, idnt) :: rest => revRaises (counter + 1) rest ++ [mkRaise counter idnt]

/-- The run of rejection lines `revRaises` produces for the indent range
`[lo, lo + fuel)`, written directly in the descending order in which it
appears in the optimized source: indents `lo + fuel - 1, ..., lo + 1, lo`,
with the counter growing toward the deeper indents. -/
def descList : Nat → Nat → Int → List Line
  | 0, _, _ => []
  | fuel + 1, counter, lo => mkRaise (counter + fuel) (lo + fuel) :: descList fuel counter lo

/-! ## Route registry data model -/

/-- Python exception classes visible to the router: the `NotFound` class of
`exceptions.py` (also the constructor default for `exception` and
`method_handler_exception`), and any other class a caller may configure. -/
inductive Exc
  | notFound
  | other (tag : Nat)
deriving DecidableEq, Repr

/-- The two registration failures of `add` (router.py lines 74-84); the source
raises bare `Exception("bad method")` / `Exception("finalized")` placeholders
for them (`# TODO: - Better exception`). -/
inductive AddErr
  | invalidMethod
  | alreadyFinalized
deriving DecidableEq, Repr

/-- The `methods` argument of `add`: omitted (`None`), a scalar string, or a
list (`list`/`tuple`/`set`) of strings. -/
inductive MethodsArg
  | noneArg
  | one (m : String)
  | many (ms : List String)
deriving DecidableEq, Repr

/-- A key of the `static_routes` / `dynamic_routes` dicts: either a parts
tuple or a route name (`t.Union[str, t.Tuple[str, ...]]`). -/
inductive RKey
  | parts (p : List (List Char))
  | name (n : String)
deriving DecidableEq, Repr

/-- Modelled from the spec: the `Route` record of `route.py` (not under
`src/`), restricted to what `router.py` and the spec (§3, §4.1) use: the
stripped path it was constructed from, its parts tuple (split of the stripped
path), optional name, staticness (no `<` placeholder marker), the
requirements payload, and the handler table keyed by (path, method) (§9:
"keyed by (method, canonical-path)"). -/
structure Route (H : Type) where
  delimiter : Char
  path : List Char
  parts : List (List Char)
  name : Option String
  static : Bool
  requirements : Option (List (String × String))
  handlers : List ((List Char × String) × H)
deriving DecidableEq, Repr

/-- Modelled from the spec: `Route(router, path, name, requirements)`
construction (§4.1): `path` arrives already stripped by `add`; the parts
tuple is its split on the router delimiter; a route is static when no
placeholder marker `<` occurs. -/
def mkRoute {H : Type} (delim : Char) (path : List Char) (name : Option String)
    (reqs : Option (List (String × String))) : Route H :=
  { delimiter := delim
    path := path
    parts := splitChar delim path
    name := name
    static := !path.contains '<'
    requirements := reqs
    handlers := [] }

/-- The mutable state of a `BaseRouter` (router.py lines 15-33): class
attributes `DEFAULT_METHOD`/`ALLOWED_METHODS`, the constructor arguments, the
two route tables, and the `finalized` flag.  Route objects are held in a
`store` indexed by creation order, so that the table entries alias one shared
object exactly as Python references do. -/
structure RouterState (H : Type) where
  delimiter : Char
  allowed : List String
  defaultMethod : String
  exception : Exc
  methodHandlerException : Exc
  store : List (Route H)
  staticRoutes : List (RKey × Nat)
  dynamicRoutes : List (RKey × Nat)
  finalized : Bool
deriving DecidableEq, Repr

/-- A freshly constructed `BaseRouter()` with the defaults of router.py
lines 16-33. -/
def initRouter (H : Type) : RouterState H :=
  { delimiter := '/'
    allowed := []
    defaultMethod := "BASE"
    exception := Exc.notFound
    methodHandlerException := Exc.notFound
    store := []
    staticRoutes := []
    dynamicRoutes := []
    finalized := false }

/-- The `methods` normalization of `add` (router.py lines 68-72): a falsy
value (omitted, empty string, empty list) defaults to `[DEFAULT_METHOD]`; a
scalar is wrapped into a one-element list. -/
def normalizeMethods (dm : String) : MethodsArg → List String
  | .noneArg => [dm]
  | .one m => if m = "" then [dm] else [m]
  | .many ms => if ms = [] then [dm] else ms

/-- The allow-list check of `add` (router.py lines 74-76): a non-empty
`ALLOWED_METHODS` rejects the call when any normalized method is outside it. -/
def methodsRejected {H : Type} (r : RouterState H) (ms : MethodsArg) : Bool :=
  !r.allowed.isEmpty &&
    (normalizeMethods r.defaultMethod ms).any (fun m => !r.allowed.contains m)

/-- Modelled from the spec: `Route.add_handler(path, handler, method)`
(route.py is not under `src/`; §4.1: "Attaches `handler` to the route for
every requested method (last registration for a given (route, method) pair
wins)"), iterated over the normalized methods as router.py lines 99-100 do. -/
def attachHandlers {H : Type} (path : List Char) (handler : H) (methods : List String)
    (hs : List ((List Char × String) × H)) : List ((List Char × String) × H) :=
  methods.foldl (fun acc m => updateA acc (path, m) handler) hs

/-- Attach a handler to the stored route object `rid` for every method —
the Python `for method in methods: route.add_handler(path, handler, method)`
loop acting on the shared object. -/
def attachAll {H : Type} (r : RouterState H) (rid : Nat) (path : List Char) (handler : H)
    (methods : List String) : RouterState H :=
  let upd := fun (rt : Route H) => { rt with handlers := attachHandlers path handler methods rt.handlers }
  { r with store := modifyAt upd rid r.store }

/-- Python truthiness of an optional string (`if name:` / `if method:`). -/
def truthyStr : Option String → Bool
  | none => false
  | some s => !(s == "")

/-- `BaseRouter.add` (router.py lines 60-100): normalize methods, reject a
method outside a non-empty allow-list, reject registration after finalize,
classify static vs dynamic by the `<` marker, strip the path, build a Route,
merge into an existing Route with the same parts or insert the new Route
under its parts key (and, when a truthy name is given, under the name key of
the same table), then attach the handler for every method. -/
def add {H : Type} (r : RouterState H) (path : List Char) (handler : H) (methods : MethodsArg)
    (name : Option String) (reqs : Option (List (String × String))) :
    Except AddErr (RouterState H) :=
  let ms := normalizeMethods r.defaultMethod methods
  if methodsRejected r methods then .error .invalidMethod
  else if r.finalized then .error .alreadyFinalized
  else
    let static := !path.contains '<'
    let path2 := stripChar r.delimiter path
    let route : Route H := mkRoute r.delimiter path2 name reqs
    let table := if static then r.staticRoutes else r.dynamicRoutes
    match lookupA table (RKey.parts route.parts) with
    | some rid => .ok (attachAll r rid path2 handler ms)
    | none =>
        let rid := r.store.length
        let table2 := updateA table (RKey.parts route.parts) rid
        let table3 := if truthyStr name then updateA table2 (RKey.name (name.getD "")) rid else table2
        let r2 :=
          if static then { r with staticRoutes := table3, store := r.store ++ [route] }
          else { r with dynamicRoutes := table3, store := r.store ++ [route] }
        .ok (attachAll r2 rid path2 handler ms)

/-- `BaseRouter.finalize` (router.py lines 102-107): set the flag, then
generate the tree, render/compile the matcher and finalize the dynamic
routes' parameter schemas.  Those three steps live in modules not under
`src/` and touch none of the registry fields modelled here; the matcher they
produce is modelled separately (`findRouteModel`). -/
def finalizeState {H : Type} (r : RouterState H) (_doCompile : Bool) : RouterState H :=
  { r with finalized := true }

/-- The registry state after an `add` call, whether or not it raised: Python
raises both of its registration errors before mutating anything, so a failed
call leaves the state as it was. -/
def addState {H : Type} (r : RouterState H) (path : List Char) (handler : H) (methods : MethodsArg)
    (name : Option String) (reqs : Option (List (String × String))) : RouterState H :=
  match add r path handler methods name reqs with
  | .ok r2 => r2
  | .error _ => r

/-- The operations a caller can perform on the registry. -/
inductive ROp (H : Type)
  | addOp (path : List Char) (handler : H) (methods : MethodsArg)
      (name : Option String) (reqs : Option (List (String × String)))
  | finalizeOp (doCompile : Bool)

/-- Apply one operation to the registry state. -/
def applyOp {H : Type} (r : RouterState H) : ROp H → RouterState H
  | .addOp p h ms n rq => addState r p h ms n rq
  | .finalizeOp dc => finalizeState r dc

/-- Apply a sequence of operations to the registry state. -/
def applyOps {H : Type} (r : RouterState H) : List (ROp H) → RouterState H
  | [] => r
  | op :: rest => applyOps (applyOp r op) rest

/-! ## Resolution -/

/-- The raw capture basket filled during dynamic matching (§3, glossary). -/
abbrev Basket : Type := List (String × List Char)

/-- Typed parameters produced by the parameter codec (abstract payload). -/
abbrev Params : Type := List (String × List Char)

/-- The route object a table entry points at. -/
def lookupRoute {H : Type} (r : RouterState H) (table : List (RKey × Nat)) (k : RKey) :
    Option (Route H) :=
  (lookupA table k).bind (fun rid => r.store.get? rid)

/-- Modelled from the spec: the compiled matcher `find_route` produced by
`_render` at finalize time.  Its static part is the two rendered lines of
router.py 125-128 — an exact lookup of the full parts tuple returning
`(route, None)`; only when that lookup misses does control reach the rendered
decision tree, modelled by the abstract procedure `dyn` (`tree.py` is not
under `src/`); a miss of the whole procedure is the fast-fail
`raise NotFound` (modelled as the `Except` error). -/
def findRouteModel {H : Type} (r : RouterState H)
    (dyn : List (List Char) → Option (Route H × Basket)) (parts : List (List Char)) :
    Except Unit (Route H × Option Basket) :=
  match lookupRoute r r.staticRoutes (RKey.parts parts) with
  | some route => .ok (route, none)
  | none =>
      match dyn parts with
      | some (route, basket) => .ok (route, some basket)
      | none => .error ()

/-- The parts tuple `resolve` matches against (router.py line 41):
`tuple(path[1:].split(self.delimiter))` — unconditionally drop the first
character, then split on the delimiter. -/
def resolveParts (delim : Char) (path : List Char) : List (List Char) :=
  splitChar delim (path.drop 1)

/-- Modelled from the spec: `Route.get_handler(raw_path, method)` (route.py
is not under `src/`; §4.5: "Handler lookup is keyed by the canonical path and
method", §3: `DEFAULT_METHOD` "is the fallback used when no explicit method
set was given").  The canonical path key is kept in stripped form, matching
what `add_handler` stored; a falsy method falls back to `DEFAULT_METHOD`. -/
def getHandler {H : Type} (delim : Char) (dm : String) (route : Route H)
    (rawPath : List Char) (method : Option String) : Option H :=
  let m := if truthyStr method then (method.getD "") else dm
  lookupA route.handlers (stripChar delim rawPath, m)

/-- `BaseRouter.resolve` (router.py lines 39-58): split the path into parts,
run the compiled matcher (its `raise NotFound` propagates as is), then for a
static route keep the raw path, empty args and empty params; for a dynamic
route run the parameter codec — a codec failure (`ValueError`, of which the
spec's `ParameterTypeError` is one) is re-raised as `self.exception` — and
append the requested method, when truthy, to the positional args.  Finally
look up the handler; a missing handler is the router's method-handler error.
`findRoute` is the compiled matcher and `parseBasket` the codec
`parse_parameter_basket` (`utils.py` is not under `src/`); both are passed in
as procedure parameters. -/
def resolveR {H : Type} (r : RouterState H)
    (findRoute : List (List Char) → Except Unit (Route H × Option Basket))
    (parseBasket : Route H → Option Basket → Except Unit (Params × List Char))
    (path : List Char) (method : Option String) :
    Except Exc (Route H × H × List String × Params) :=
  match findRoute (resolveParts r.delimiter path) with
  | .error _ => .error Exc.notFound
  | .ok (route, basket) =>
      if route.static then
        match getHandler r.delimiter r.defaultMethod route path method with
        | some handler => .ok (route, handler, [], [])
        | none => .error r.methodHandlerException
      else
        match parseBasket route basket with
        | .error _ => .error r.exception
        | .ok (params, rawPath) =>
            let args := if truthyStr method then [method.getD ""] else []
            match getHandler r.delimiter r.defaultMethod route rawPath method with
            | some handler => .ok (route, handler, args, params)
            | none => .error r.methodHandlerException

/-! ## Concrete fixtures used by witnesses and counterexamples -/

/-- A sample rendered decision tree: one two-segment dynamic branch with a
typed check, a capture and a leaf return. -/
def tlW : List Line :=
  [ { src := chars "if num == 2:", indent := 1 },
    { src := chars "if parts[1].isdigit():", indent := 2 },
    { src := chars "basket[0] = parts[1]", indent := 3 },
    { src := chars "return router.dynamic_routes[0], basket", indent := 3 } ]

/-- A fresh default router over `Nat` handler identifiers. -/
def rEmpty : RouterState Nat := initRouter Nat

/-- The router after `add("/users", 7, methods=["GET"])`. -/
def rStatic : RouterState Nat := addState rEmpty (chars "/users") 7 (MethodsArg.many ["GET"]) none none

/-- `rStatic` after `finalize()`. -/
def rStaticFin : RouterState Nat := finalizeState rStatic true

/-- The router after `add("/users/<id>", 8, methods=["GET"])`. -/
def rDyn : RouterState Nat := addState rEmpty (chars "/users/<id>") 8 (MethodsArg.many ["GET"]) none none

/-- The stored static `users` route object. -/
def routeW : Route Nat := rStaticFin.store.getD 0 (mkRoute '/' [] none none)

/-- The stored dynamic `users/<id>` route object. -/
def routeD : Route Nat := rDyn.store.getD 0 (mkRoute '/' [] none none)

/-- A dynamic-tree procedure that claims every parts tuple (used to show the
static lookup still wins). -/
def dynW : List (List Char) → Option (Route Nat × Basket) :=
  fun _ => some (mkRoute '/' (chars "dummy") none none, [])

/-- A dynamic-tree procedure matching exactly `users/5` with a captured id. -/
def dynD : List (List Char) → Option (Route Nat × Basket) :=
  fun parts => if parts = [chars "users", chars "5"] then some (routeD, [("id", chars "5")]) else none

/-- A parameter codec that always fails (the captured text violates the
declared type). -/
def parFail : Route Nat → Option Basket → Except Unit (Params × List Char) :=
  fun _ _ => .error ()

/-- A parameter codec that accepts the basket and reconstructs the canonical
path of the `users/<id>` route. -/
def parOk : Route Nat → Option Basket → Except Unit (Params × List Char) :=
  fun _ b => .ok (b.getD [], chars "/users/<id>")

/-- A finalized router with a non-empty method allow-list. -/
def rFinAllowed : RouterState Nat := { initRouter Nat with allowed := ["GET"], finalized := true }

/-! # Theorems -/

/-! ## Association-list lemmas -/

theorem lookupA_updateA_self {α β : Type} [DecidableEq α] (l : List (α × β)) (k : α) (v : β) :
    lookupA (updateA l k v) k = some v := by
  induction l with
  | nil => simp [updateA, lookupA]
  | cons kv rest ih =>
      obtain ⟨k0, v0⟩ := kv
      by_cases h : k = k0
      · simp [updateA, lookupA, h]
      · simp [updateA, lookupA, h, ih]

theorem lookupA_updateA_other {α β : Type} [DecidableEq α] (l : List (α × β)) (k q : α) (v : β)
    (h : q ≠ k) : lookupA (updateA l k v) q = lookupA l q := by
  induction l with
  | nil => simp [updateA, lookupA, h]
  | cons kv rest ih =>
      obtain ⟨k0, v0⟩ := kv
      by_cases h0 : k = k0
      · subst h0; simp [updateA, lookupA, h]
      · by_cases hq : q = k0
        · simp [updateA, lookupA, h0, hq]
        · simp [updateA, lookupA, h0, hq, ih]

theorem attachHandlers_not_mem {H : Type} (p : List Char) (h : H) (ms : List String)
    (hs : List ((List Char × String) × H)) (q : List Char × String) (hq : q.2 ∉ ms) :
    lookupA (attachHandlers p h ms hs) q = lookupA hs q := by
  induction ms generalizing hs with
  | nil => simp [attachHandlers]
  | cons m rest ih =>
      have hq1 : q.2 ∉ rest := fun hc => hq (List.mem_cons_of_mem _ hc)
      have hq2 : q ≠ (p, m) := by
        intro hc
        exact hq (by rw [hc]; exact List.mem_cons_self _ _)
      have := ih (updateA hs (p, m) h)
      simp only [attachHandlers, List.foldl_cons] at *
      rw [this hq1, lookupA_updateA_other _ _ _ _ hq2]

theorem attachHandlers_mem {H : Type} (p : List Char) (h : H) (ms : List String)
    (hs : List ((List Char × String) × H)) (m : String) (hm : m ∈ ms) :
    lookupA (attachHandlers p h ms hs) (p, m) = some h := by
  induction ms generalizing hs with
  | nil => cases hm
  | cons m0 rest ih =>
      by_cases hr : m ∈ rest
      · simpa only [attachHandlers, List.foldl_cons] using ih (updateA hs (p, m0) h) hr
      · have hm0 : m = m0 := by
          rcases List.mem_cons.mp hm with h1 | h1
          · exact h1
          · exact absurd h1 hr
        subst hm0
        have := attachHandlers_not_mem p h rest (updateA hs (p, m) h) (p, m) hr
        simp only [attachHandlers, List.foldl_cons] at *
        rw [this, lookupA_updateA_self]

theorem modifyAt_length {α : Type} (f : α → α) (n : Nat) (l : List α) :
    (modifyAt f n l).length = l.length := by
  induction l generalizing n with
  | nil => simp [modifyAt]
  | cons a rest ih =>
      cases n with
      | zero => simp [modifyAt]
      | succ k => simp [modifyAt, ih]

theorem modifyAt_get_self {α : Type} (f : α → α) (n : Nat) (l : List α) :
    (modifyAt f n l).get? n = (l.get? n).map f := by
  induction l generalizing n with
  | nil => simp [modifyAt]
  | cons a rest ih =>
      cases n with
      | zero => simp [modifyAt]
      | succ k => simpa [modifyAt] using ih k

theorem modifyAt_get_other {α : Type} (f : α → α) (n j : Nat) (l : List α) (h : j ≠ n) :
    (modifyAt f n l).get? j = l.get? j := by
  induction l generalizing n j with
  | nil => simp [modifyAt]
  | cons a rest ih =>
      cases n with
      | zero =>
          cases j with
          | zero => exact absurd rfl h
          | succ i => simp [modifyAt]
      | succ k =>
          cases j with
          | zero => simp [modifyAt]
          | succ i => simpa [modifyAt] using ih k i (fun hc => h (by rw [hc]))

/-! ## Claim theorems: resolution-side -/

/-- Claim C10: `resolve` computes the segment tuple by unconditionally
removing exactly the first character of the path and splitting the remainder
on the delimiter: the identity of the first character is irrelevant (so a
path that does not begin with the delimiter has the first character of its
first segment silently dropped — witness `"users/5" ↦ ("sers", "5")`), and
both the empty path and the single-delimiter path `"/"` resolve over the
one-element segment tuple containing the empty string. -/
theorem c10_leading_strip :
    (∀ (delim c d : Char) (p : List Char),
        resolveParts delim (c :: p) = resolveParts delim (d :: p)) ∧
    (∀ (delim c : Char) (p : List Char), resolveParts delim (c :: p) = splitChar delim p) ∧
    resolveParts '/' (chars "") = [[]] ∧
    resolveParts '/' (chars "/") = [[]] ∧
    resolveParts '/' (chars "users/5") = [chars "sers", chars "5"] := by
  refine ⟨fun delim c d p => rfl, fun delim c p => rfl, by decide, by decide, by decide⟩

/-- Claim C4 (the code at the failing input): with no static and no dynamic
routes, the source `_render` hands to `optimize` is the bare
`def find_route(parts, router, basket):` header, and `optimize` adds nothing
(the end-of-procedure loop runs up to the last line's indent, `0`), so the
matcher source has an empty function body — `compile()` of such source
cannot succeed, rather than yielding a matcher that signals not-found. -/
theorem c4_empty_router_render : optimize 0 (renderLines false false []) = [defLine] := by decide

/-- Claim C2: for a finalized router, any segment tuple that is a key of the
static-route table is answered by the exact static lookup — the matcher
returns that route with no capture basket (`None`) — no matter what the
dynamic decision tree would say, because the static lookup is rendered before
any dynamic-tree line. -/
theorem c2_static_precedence {H : Type} (r : RouterState H)
    (dyn : List (List Char) → Option (Route H × Basket)) (parts : List (List Char))
    (route : Route H) (_hfin : r.finalized = true)
    (hs : lookupRoute r r.staticRoutes (RKey.parts parts) = some route) :
    findRouteModel r dyn parts = .ok (route, none) := by
  unfold findRouteModel
  rw [hs]

/-- Witness for C2: in the finalized one-static-route router, the parts tuple
`("users",)` is answered by the stored static route with no captures, even
though the ambient dynamic procedure claims every tuple. -/
theorem c2_static_precedence_witness :
    findRouteModel rStaticFin dynW [chars "users"] = .ok (routeW, none) :=
  c2_static_precedence rStaticFin dynW [chars "users"] routeW (by decide) (by decide)

/-- Claim C3: when the matcher hands `resolve` a dynamic route and the
parameter codec fails (router.py lines 50-53 catch the codec's `ValueError`),
`resolve` fails with the router's generic not-found exception
`self.exception`; and — since a matcher miss surfaces as the `NotFound`
raised inside the compiled source — with the default configuration
(`exception = NotFound`) the two failures are the very same outcome. -/
theorem c3_param_error_unified {H : Type} (r : RouterState H)
    (fr : List (List Char) → Except Unit (Route H × Option Basket))
    (par : Route H → Option Basket → Except Unit (Params × List Char))
    (path : List Char) (method : Option String) (route : Route H) (basket : Option Basket)
    (hok : fr (resolveParts r.delimiter path) = .ok (route, basket))
    (hdyn : route.static = false)
    (hfail : par route basket = .error ()) :
    resolveR r fr par path method = .error r.exception ∧
    (∀ (path2 : List Char) (method2 : Option String),
        fr (resolveParts r.delimiter path2) = .error () →
        r.exception = Exc.notFound →
        resolveR r fr par path method = resolveR r fr par path2 method2) := by
  have h1 : resolveR r fr par path method = .error r.exception := by
    simp [resolveR, hok, hdyn, hfail]
  refine ⟨h1, fun path2 method2 hmiss hexc => ?_⟩
  have h2 : resolveR r fr par path2 method2 = .error Exc.notFound := by
    simp [resolveR, hmiss]
  rw [h1, h2, hexc]

/-- Witness for C3: in the one-dynamic-route router, `/users/5` reaches the
dynamic route, the codec rejects the captured value, and `resolve` fails with
the router's (default) not-found exception. -/
theorem c3_param_error_unified_witness :
    resolveR rDyn (findRouteModel rDyn dynD) parFail (chars "/users/5") (some "GET") =
      .error Exc.notFound :=
  (c3_param_error_unified rDyn (findRouteModel rDyn dynD) parFail (chars "/users/5")
    (some "GET") routeD (some [("id", chars "5")]) (by decide) (by decide) (by decide)).1

/-- Claim C6: on a router with a non-empty method allow-list, an `add`
whose normalized methods contain one outside the allow-list fails with the
invalid-method error (router.py lines 74-79), checked before anything else —
the registry state is untouched, so there is no partial registration. -/
theorem c6_invalid_method {H : Type} (r : RouterState H) (path : List Char) (handler : H)
    (ms : MethodsArg) (name : Option String) (reqs : Option (List (String × String)))
    (hne : r.allowed ≠ [])
    (hbad : ∃ m ∈ normalizeMethods r.defaultMethod ms, m ∉ r.allowed) :
    add r path handler ms name reqs = .error .invalidMethod ∧
    addState r path handler ms name reqs = r := by
  have hrej : methodsRejected r ms = true := by
    obtain ⟨m, hm, hnotin⟩ := hbad
    unfold methodsRejected
    simp only [Bool.and_eq_true, List.any_eq_true]
    constructor
    · simpa [List.isEmpty_iff] using hne
    · exact ⟨m, hm, by simpa using hnotin⟩
  have h1 : add r path handler ms name reqs = .error .invalidMethod := by
    unfold add
    rw [hrej]
    rfl
  exact ⟨h1, by unfold addState; rw [h1]⟩

/-- Witness for C6: on a router allowing only `GET`, registering with
`methods=["POST"]` fails with the invalid-method error and changes nothing. -/
theorem c6_invalid_method_witness :
    add rFinAllowed (chars "/x") 0 (MethodsArg.many ["POST"]) none none = .error .invalidMethod ∧
    addState rFinAllowed (chars "/x") 0 (MethodsArg.many ["POST"]) none none = rFinAllowed :=
  c6_invalid_method rFinAllowed (chars "/x") 0 (MethodsArg.many ["POST"]) none none
    (by decide) ⟨"POST", by decide, by decide⟩

/-- Counterexample to claim C9 as stated: on the one-static-route router,
`resolve("/users", method="GET")` succeeds and returns the positional-args
list `[]` — the requested method is **not** prepended, because router.py
line 54-55 appends it only on the dynamic branch. -/
theorem c9_counterexample :
    resolveR rStatic (findRouteModel rStatic (fun _ => none)) parFail
        (chars "/users") (some "GET") =
      .ok (routeW, 7, [], []) ∧ ([] : List String) ≠ ["GET"] := by
  constructor
  · decide
  · decide

/-- Claim C9 (amended): the method is prepended (as the sole element of the
positional-args list) exactly on successful dynamic resolutions with a truthy
requested method; on static resolutions the list is always empty, and it is
also empty when no method was requested. -/
theorem c9_amended {H : Type} (r : RouterState H)
    (fr : List (List Char) → Except Unit (Route H × Option Basket))
    (par : Route H → Option Basket → Except Unit (Params × List Char))
    (path : List Char) (method : Option String) (route : Route H) (hd : H)
    (args : List String) (pm : Params)
    (hres : resolveR r fr par path method = Except.ok (route, hd, args, pm)) :
    (route.static = true → args = []) ∧
    (route.static = false → args = (if truthyStr method then [method.getD ""] else [])) := by
  unfold resolveR at hres
  split at hres
  · exact absurd hres (by simp)
  · split at hres
    case isTrue route0 basket0 hst =>
      split at hres
      · simp only [Except.ok.injEq, Prod.mk.injEq] at hres
        obtain ⟨h1, _, h3, _⟩ := hres
        subst h1
        exact ⟨fun _ => h3.symm, fun hc => absurd hst (by simp [hc])⟩
      · exact absurd hres (by simp)
    case isFalse route0 basket0 hst =>
      split at hres
      · exact absurd hres (by simp)
      · cases hb : truthyStr method with
        | true =>
            simp only [hb, if_true] at hres
            split at hres
            · simp only [Except.ok.injEq, Prod.mk.injEq] at hres
              obtain ⟨h1, _, h3, _⟩ := hres
              subst h1
              refine ⟨fun hc => absurd hc (by simpa using hst), fun _ => by simp [hb, h3.symm]⟩
            · exact absurd hres (by simp)
        | false =>
            simp only [hb, Bool.false_eq_true, if_false] at hres
            split at hres
            · simp only [Except.ok.injEq, Prod.mk.injEq] at hres
              obtain ⟨h1, _, h3, _⟩ := hres
              subst h1
              refine ⟨fun hc => absurd hc (by simpa using hst), fun _ => by simp [hb, h3.symm]⟩
            · exact absurd hres (by simp)

/-- Witness for C9 (amended): a successful dynamic resolution of `/users/5`
with method `GET` returns args `["GET"]`, matching the amended statement. -/
theorem c9_amended_witness :
    (routeD.static = true → (["GET"] : List String) = []) ∧
    (routeD.static = false →
        (["GET"] : List String) = (if truthyStr (some "GET") then [(some "GET").getD ""] else [])) :=
  c9_amended rDyn (findRouteModel rDyn dynD) parOk (chars "/users/5") (some "GET") routeD 8
    ["GET"] [("id", chars "5")] (by decide)

/-! ## Claim theorems: registration-side -/

theorem addState_finalized {H : Type} (r : RouterState H) (p : List Char) (h : H)
    (ms : MethodsArg) (n : Option String) (rq : Option (List (String × String))) :
    (addState r p h ms n rq).finalized = r.finalized := by
  unfold addState
  cases hadd : add r p h ms n rq with
  | error e => rfl
  | ok r2 =>
      unfold add at hadd
      by_cases h1 : methodsRejected r ms = true
      · simp [h1] at hadd
      · by_cases h2 : r.finalized = true
        · simp [h1, h2] at hadd
        · simp only [h1, h2, if_false, if_neg, Bool.false_eq_true] at hadd
          split at hadd
          · injection hadd with hadd
            subst hadd
            simp [attachAll]
          · injection hadd with hadd
            subst hadd
            by_cases hc : ('<' ∈ p) <;> simp [attachAll, hc] <;> simpa using h2

/-- Counterexample to claim C5 as stated: on a finalized router whose
allow-list is `["GET"]`, `add` with `methods=["POST"]` fails with the
invalid-method error, not the already-finalized error — the allow-list check
(router.py lines 74-79) runs before the finalized check (lines 81-84). -/
theorem c5_counterexample :
    add rFinAllowed (chars "/x") 0 (MethodsArg.many ["POST"]) none none =
      .error AddErr.invalidMethod ∧
    (Except.error AddErr.invalidMethod : Except AddErr (RouterState Nat)) ≠
      .error AddErr.alreadyFinalized := by
  constructor
  · decide
  · decide

/-- Claim C5 (amended): after `finalize`, every `add` fails and leaves the
registry unchanged — with the already-finalized error whenever the requested
methods pass the allow-list check, and with the invalid-method error
otherwise (that check runs first); and the `finalized` flag, once true, stays
true under every sequence of operations. -/
theorem c5_amended {H : Type} (r : RouterState H) (hfin : r.finalized = true) :
    (∀ (p : List Char) (h : H) (ms : MethodsArg) (n : Option String)
        (rq : Option (List (String × String))),
        add r p h ms n rq =
          .error (if methodsRejected r ms then AddErr.invalidMethod else AddErr.alreadyFinalized) ∧
        addState r p h ms n rq = r) ∧
    (∀ ops : List (ROp H), (applyOps r ops).finalized = true) := by
  have hadd : ∀ (p : List Char) (h : H) (ms : MethodsArg) (n : Option String)
      (rq : Option (List (String × String))),
      add r p h ms n rq =
        .error (if methodsRejected r ms then AddErr.invalidMethod else AddErr.alreadyFinalized) := by
    intro p h ms n rq
    unfold add
    by_cases hrej : methodsRejected r ms
    · simp [hrej]
    · simp [hrej, hfin]
  have haux : ∀ (ops : List (ROp H)) (s : RouterState H), s.finalized = true →
      (applyOps s ops).finalized = true := by
    intro ops
    induction ops with
    | nil => intro s hs; exact hs
    | cons op rest ih =>
        intro s hs
        refine ih (applyOp s op) ?_
        cases op with
        | addOp p h ms n rq => rw [applyOp, addState_finalized]; exact hs
        | finalizeOp dc => rfl
  refine ⟨fun p h ms n rq => ⟨hadd p h ms n rq, ?_⟩, fun ops => haux ops r hfin⟩
  unfold addState
  rw [hadd p h ms n rq]

/-- Witness for C5 (amended): on the finalized router, an allowed-method
`add` fails with the already-finalized error, and a subsequent operation
sequence leaves `finalized` true. -/
theorem c5_amended_witness :
    add rFinAllowed (chars "/y") 0 (MethodsArg.many ["GET"]) none none =
      .error AddErr.alreadyFinalized ∧
    (applyOps rFinAllowed
        [ROp.addOp (chars "/z") 1 MethodsArg.noneArg none none, ROp.finalizeOp true]).finalized =
      true := by
  have h := c5_amended rFinAllowed (by decide)
  constructor
  · have h2 := (h.1 (chars "/y") 0 (MethodsArg.many ["GET"]) none none).1
    have hm : methodsRejected rFinAllowed (MethodsArg.many ["GET"]) = false := by decide
    rw [hm] at h2
    simpa using h2
  · exact h.2 [ROp.addOp (chars "/z") 1 MethodsArg.noneArg none none, ROp.finalizeOp true]

/-- Counterexample to claim C8 as stated: registering the static route
`/users` with name `"u"` on a fresh router indexes the name in the **static**
table — the dynamic table stays empty — because router.py line 97 writes the
name into the same `routes` dict that was selected for the parts (line 87). -/
theorem c8_counterexample :
    add rEmpty (chars "/users") 7 MethodsArg.noneArg (some "u") none =
      Except.ok (addState rEmpty (chars "/users") 7 MethodsArg.noneArg (some "u") none) ∧
    (addState rEmpty (chars "/users") 7 MethodsArg.noneArg (some "u") none).dynamicRoutes = [] ∧
    lookupA (addState rEmpty (chars "/users") 7 MethodsArg.noneArg (some "u") none).staticRoutes
        (RKey.name "u") = some 0 := by
  refine ⟨by decide, by decide, by decide⟩

/-- Claim C8 (amended): a successful `add` that creates a new Route and
carries a truthy name additionally indexes the Route under that name **in
the same table that received its parts key** — the static table for a static
route, the dynamic table for a dynamic one — and leaves the other table
untouched. -/
theorem c8_amended {H : Type} (r : RouterState H) (path : List Char) (h : H) (ms : MethodsArg)
    (nm : String) (rq : Option (List (String × String)))
    (hfin : r.finalized = false)
    (hrej : methodsRejected r ms = false)
    (hname : nm ≠ "")
    (hnew : lookupA (if path.contains '<' then r.dynamicRoutes else r.staticRoutes)
        (RKey.parts (splitChar r.delimiter (stripChar r.delimiter path))) = none) :
    ∃ r2, add r path h ms (some nm) rq = Except.ok r2 ∧
      lookupA (if path.contains '<' then r2.dynamicRoutes else r2.staticRoutes)
          (RKey.name nm) = some r.store.length ∧
      (if path.contains '<' then r2.staticRoutes = r.staticRoutes
       else r2.dynamicRoutes = r.dynamicRoutes) := by
  refine ⟨addState r path h ms (some nm) rq, ?_, ?_, ?_⟩ <;>
    unfold addState add <;>
    by_cases hc : path.contains '<' = true <;>
    simp only [hc, if_true, if_false, Bool.false_eq_true, Bool.true_eq_false, hrej, hfin,
      Bool.not_true, Bool.not_false, mkRoute] at hnew ⊢ <;>
    rw [hnew] <;>
    simp [truthyStr, hname, attachAll, lookupA_updateA_self]

/-- Witness for C8 (amended): registering static `/users` with name `"u"` on
a fresh router puts the name key in the static table (where the parts key
went) and leaves the dynamic table unchanged. -/
theorem c8_amended_witness :
    ∃ r2, add rEmpty (chars "/users") 7 MethodsArg.noneArg (some "u") none = Except.ok r2 ∧
      lookupA (if (chars "/users").contains '<' then r2.dynamicRoutes else r2.staticRoutes)
          (RKey.name "u") = some rEmpty.store.length ∧
      (if (chars "/users").contains '<' then r2.staticRoutes = rEmpty.staticRoutes
       else r2.dynamicRoutes = rEmpty.dynamicRoutes) :=
  c8_amended rEmpty (chars "/users") 7 MethodsArg.noneArg "u" none (by decide) (by decide)
    (by decide) (by decide)

/-- Claim C7: when an `add` call's path normalizes to a parts tuple already
present in its table, no table entry is created or removed in either table
and no Route is created — the handler is attached, for every requested
method, to the Route object the table already points at (and only to it). -/
theorem c7_parts_merge {H : Type} (r : RouterState H) (path : List Char) (h : H) (ms : MethodsArg)
    (nm : Option String) (rq : Option (List (String × String))) (rid : Nat)
    (hfin : r.finalized = false)
    (hrej : methodsRejected r ms = false)
    (hlook : lookupA (if path.contains '<' then r.dynamicRoutes else r.staticRoutes)
        (RKey.parts (splitChar r.delimiter (stripChar r.delimiter path))) = some rid) :
    ∃ r2, add r path h ms nm rq = Except.ok r2 ∧
      r2.staticRoutes = r.staticRoutes ∧
      r2.dynamicRoutes = r.dynamicRoutes ∧
      r2.store.length = r.store.length ∧
      (∀ m ∈ normalizeMethods r.defaultMethod ms,
          (r2.store.get? rid).map
              (fun rt => lookupA rt.handlers (stripChar r.delimiter path, m)) =
            (r.store.get? rid).map (fun _ => some h)) ∧
      (∀ j, j ≠ rid → r2.store.get? j = r.store.get? j) := by
  refine ⟨addState r path h ms nm rq, ?_, ?_, ?_, ?_, ?_, ?_⟩ <;>
    unfold addState add <;>
    by_cases hc : path.contains '<' = true <;>
    simp only [hc, if_true, if_false, Bool.false_eq_true, Bool.true_eq_false, hrej, hfin,
      Bool.not_true, Bool.not_false, mkRoute] at hlook ⊢ <;>
    rw [hlook] <;>
    simp only [attachAll, modifyAt_length, Except.ok.injEq]
  all_goals
    first
    | · intro m hm
        rw [modifyAt_get_self]
        cases r.store.get? rid with
        | none => rfl
        | some rt => simp [attachHandlers_mem _ _ _ _ _ hm]
    | · intro j hj
        exact modifyAt_get_other _ _ _ _ hj

/-- Witness for C7: a second registration `add("users/", 9, ["POST"])` whose
path normalizes to the already-registered parts `("users",)` merges into the
existing Route: both tables and the store size are untouched, and the stored
Route now answers `POST` with the new handler. -/
theorem c7_parts_merge_witness :
    ∃ r2, add rStatic (chars "users/") 9 (MethodsArg.many ["POST"]) none none = Except.ok r2 ∧
      r2.staticRoutes = rStatic.staticRoutes ∧
      r2.dynamicRoutes = rStatic.dynamicRoutes ∧
      r2.store.length = rStatic.store.length ∧
      (∀ m ∈ normalizeMethods rStatic.defaultMethod (MethodsArg.many ["POST"]),
          (r2.store.get? 0).map
              (fun rt => lookupA rt.handlers (stripChar rStatic.delimiter (chars "users/"), m)) =
            (rStatic.store.get? 0).map (fun _ => some 9)) ∧
      (∀ j, j ≠ 0 → r2.store.get? j = rStatic.store.get? j) :=
  c7_parts_merge rStatic (chars "users/") 9 (MethodsArg.many ["POST"]) none none 0
    (by decide) (by decide) (by decide)

/-! ## Structure of the insertion set computed by `optimize` -/

theorem isTerminal_mkRaise (c : Nat) (i : Int) : isTerminal (mkRaise c i) = true := rfl

theorem mkRaise_indent (c : Nat) (i : Int) : (mkRaise c i).indent = i := rfl

theorem isTerminal_of_return {l : Line} (h : startsWithL l.src (chars "return") = true) :
    isTerminal l = true := by
  unfold isTerminal
  rw [h]
  rfl

theorem mem_intRangeAux {x : Int} : ∀ (f : Nat) (lo : Int),
    x ∈ intRangeAux f lo ↔ lo ≤ x ∧ x < lo + f := by
  intro f
  induction f with
  | zero => intro lo; simp [intRangeAux]
  | succ k ih =>
      intro lo
      simp only [intRangeAux, List.mem_cons, ih (lo + 1)]
      omega

theorem pairwise_intRangeAux (f : Nat) : ∀ lo : Int, List.Pairwise (· < ·) (intRangeAux f lo) := by
  induction f with
  | zero => intro lo; exact List.Pairwise.nil
  | succ k ih =>
      intro lo
      refine List.Pairwise.cons (fun y hy => ?_) (ih (lo + 1))
      have := (mem_intRangeAux k (lo + 1)).mp hy
      omega

theorem nodup_intRangeAux (f : Nat) (lo : Int) : (intRangeAux f lo).Nodup :=
  (pairwise_intRangeAux f lo).imp ne_of_lt

theorem pass1_eq : ∀ (src : List Line) (cur : Int) (p : Line) (n : Nat),
    (∀ l ∈ src, l.offset = 0) →
    pass1 0 cur p n src = (src, (groupsFrom n p src).flatten) := by
  intro src
  induction src with
  | nil => intro cur p n _; rfl
  | cons a rest ih =>
      intro cur p n h
      obtain ⟨s, ind, off, rd⟩ := a
      have ha : off = 0 := h ⟨s, ind, off, rd⟩ (List.mem_cons_self _ _)
      subst ha
      have hr : ∀ l ∈ rest, l.offset = 0 := fun l hl => h l (List.mem_cons_of_mem _ hl)
      unfold pass1
      simp only [ite_self, add_zero]
      rw [ih ind ⟨s, ind, 0, rd⟩ (n + 1) hr]
      simp only [groupsFrom, List.flatten_cons]
      rfl

theorem mem_groupsFrom_flatten {q : Nat × Int} : ∀ (src : List Line) (n : Nat) (p : Line),
    q ∈ (groupsFrom n p src).flatten → n ≤ q.1 ∧ q.1 < n + src.length := by
  intro src
  induction src with
  | nil => intro n p hq; simp [groupsFrom] at hq
  | cons a rest ih =>
      intro n p hq
      simp only [groupsFrom, List.flatten_cons, List.mem_append] at hq
      rcases hq with hq | hq
      · unfold groupFor at hq
        split at hq
        · simp only [List.mem_map] at hq
          obtain ⟨i, _, hqe⟩ := hq
          subst hqe
          simp
        · simp at hq
      · have := ih (n + 1) a hq
        simp only [List.length_cons]
        omega

theorem mem_mapRange {q : Nat × Int} (m : Nat) (lo hi : Int)
    (hq : q ∈ (intRange lo hi).map (fun i => (m, i))) : q.1 = m ∧ lo ≤ q.2 ∧ q.2 < hi := by
  simp only [List.mem_map] at hq
  obtain ⟨i, hi2, hqe⟩ := hq
  have := (mem_intRangeAux _ lo).mp hi2
  subst hqe
  unfold intRange at *
  constructor
  · rfl
  · constructor
    · exact this.1
    · have h2 := this.2
      omega

theorem nodup_mapRange (m : Nat) (lo hi : Int) :
    ((intRange lo hi).map (fun i => (m, i))).Nodup := by
  refine (nodup_intRangeAux _ lo).map ?_
  intro i j h
  simpa using h

theorem pairwise_mapRange (m : Nat) (lo hi : Int) :
    List.Pairwise pairLE ((intRange lo hi).map (fun i => (m, i))) := by
  refine List.pairwise_map.mpr ?_
  refine (pairwise_intRangeAux _ lo).imp ?_
  intro i j hij
  exact Or.inr ⟨rfl, le_of_lt hij⟩

theorem mem_groupFor {q : Nat × Int} (n : Nat) (p a : Line) (hq : q ∈ groupFor n p a) :
    q.1 = n := by
  unfold groupFor at hq
  split at hq
  · exact (mem_mapRange n _ _ hq).1
  · simp at hq

theorem nodup_groupFor (n : Nat) (p a : Line) : (groupFor n p a).Nodup := by
  unfold groupFor
  split
  · exact nodup_mapRange n _ _
  · exact List.nodup_nil

theorem pairwise_groupFor (n : Nat) (p a : Line) : List.Pairwise pairLE (groupFor n p a) := by
  unfold groupFor
  split
  · exact pairwise_mapRange n _ _
  · exact List.Pairwise.nil

theorem nodup_groupsFrom_flatten : ∀ (src : List Line) (n : Nat) (p : Line),
    ((groupsFrom n p src).flatten).Nodup := by
  intro src
  induction src with
  | nil => intro n p; simp [groupsFrom]
  | cons a rest ih =>
      intro n p
      simp only [groupsFrom, List.flatten_cons]
      refine List.Nodup.append (nodup_groupFor n p a) (ih (n + 1) a) ?_
      intro q hq1 hq2
      have h1 := mem_groupFor n p a hq1
      have h2 := (mem_groupsFrom_flatten rest (n + 1) a hq2).1
      omega

theorem nodup_collected (p : Line) (src : List Line) (li : Int) :
    ((groupsFrom 0 p src).flatten ++ endGroupFor src.length li).Nodup := by
  refine List.Nodup.append (nodup_groupsFrom_flatten src 0 p) (nodup_mapRange _ _ _) ?_
  intro q hq1 hq2
  have h1 := (mem_groupsFrom_flatten src 0 p hq1).2
  have h2 := (mem_mapRange _ _ _ hq2).1
  omega

theorem flatten_reverse_perm {α : Type} (L : List (List α)) :
    ((L.reverse).flatten).Perm (L.flatten) := by
  induction L with
  | nil => exact List.Perm.refl _
  | cons g gs ih =>
      simp only [List.reverse_cons, List.flatten_append, List.flatten_cons,
        List.flatten_nil, List.append_nil]
      exact List.Perm.trans List.perm_append_comm (ih.append_left g)

theorem collected_perm (p : Line) (src : List Line) (li : Int) :
    ((groupsFrom 0 p src).flatten ++ endGroupFor src.length li).Perm
      (endGroupFor src.length li ++ ((groupsFrom 0 p src).reverse).flatten) :=
  List.Perm.trans List.perm_append_comm
    (((flatten_reverse_perm (groupsFrom 0 p src)).symm).append_left _)

theorem pairwise_groupsFrom_rev : ∀ (src : List Line) (n : Nat) (p : Line),
    List.Pairwise pairLE (((groupsFrom n p src).reverse).flatten) := by
  intro src
  induction src with
  | nil => intro n p; simp [groupsFrom]
  | cons a rest ih =>
      intro n p
      simp only [groupsFrom, List.reverse_cons, List.flatten_append, List.flatten_cons,
        List.flatten_nil, List.append_nil]
      refine List.pairwise_append.mpr ⟨ih (n + 1) a, pairwise_groupFor n p a, ?_⟩
      intro x hx y hy
      have hx2 : x ∈ (groupsFrom (n + 1) a rest).flatten := by
        simp only [List.mem_flatten, List.mem_reverse] at hx ⊢
        exact hx
      have h1 := (mem_groupsFrom_flatten rest (n + 1) a hx2).1
      have h2 := mem_groupFor n p a hy
      exact Or.inl (by omega)

theorem sorted_targetIns (p : Line) (src : List Line) :
    List.Sorted pairLE (targetIns p src) := by
  unfold targetIns
  refine List.pairwise_append.mpr ⟨pairwise_mapRange _ _ _, pairwise_groupsFrom_rev src 0 p, ?_⟩
  intro x hx y hy
  have h1 := (mem_mapRange _ _ _ hx).1
  have hy2 : y ∈ (groupsFrom 0 p src).flatten := by
    simp only [List.mem_flatten, List.mem_reverse] at hy ⊢
    exact hy
  have h2 := (mem_groupsFrom_flatten src 0 p hy2).2
  exact Or.inl (by omega)

theorem sort_collected_eq (p : Line) (src : List Line) (li : Int) :
    List.insertionSort pairLE
        (((groupsFrom 0 p src).flatten ++ endGroupFor src.length li).dedup) =
      endGroupFor src.length li ++ ((groupsFrom 0 p src).reverse).flatten := by
  rw [List.dedup_eq_self.mpr (nodup_collected p src li)]
  refine List.eq_of_perm_of_sorted ?_ (List.sorted_insertionSort pairLE _) ?_
  · exact (List.perm_insertionSort pairLE _).trans (collected_perm p src li)
  · refine List.pairwise_append.mpr ⟨pairwise_mapRange _ _ _, pairwise_groupsFrom_rev src 0 p, ?_⟩
    intro x hx y hy
    have h1 := (mem_mapRange _ _ _ hx).1
    have hy2 : y ∈ (groupsFrom 0 p src).flatten := by
      simp only [List.mem_flatten, List.mem_reverse] at hy ⊢
      exact hy
    have h2 := (mem_groupsFrom_flatten src 0 p hy2).2
    exact Or.inl (by omega)

/-! ## Shape of the output of the insertion loop -/

theorem applyInserts_append : ∀ (P : List (Nat × Int)) (counter : Nat) (Q : List (Nat × Int))
    (M : List Line),
    applyInserts counter (P ++ Q) M =
      applyInserts (counter + P.length) Q (applyInserts counter P M) := by
  intro P
  induction P with
  | nil => intro counter Q M; simp [applyInserts]
  | cons q P' ih =>
      intro counter Q M
      obtain ⟨n, i⟩ := q
      simp only [List.cons_append, applyInserts, List.append_eq]
      rw [ih (counter + 1)]
      congr 1
      simp
      omega

theorem applyInserts_shift : ∀ (P : List (Nat × Int)) (counter : Nat) (a : Line) (M : List Line),
    (∀ q ∈ P, 1 ≤ q.1) →
    applyInserts counter P (a :: M) = a :: applyInserts counter (predP P) M := by
  intro P
  induction P with
  | nil => intro counter a M _; simp [applyInserts, predP]
  | cons q P' ih =>
      intro counter a M hge
      obtain ⟨n, i⟩ := q
      have hn : 1 ≤ n := hge (n, i) (List.mem_cons_self _ _)
      cases n with
      | zero => omega
      | succ k =>
          simp only [applyInserts, List.insertIdx_succ_cons]
          rw [ih (counter + 1) a _ (fun q hq => hge q (List.mem_cons_of_mem _ hq))]
          simp only [predP, List.map_cons, Nat.add_sub_cancel]

theorem applyInserts_zeros : ∀ (P : List (Nat × Int)) (counter : Nat) (M : List Line),
    (∀ q ∈ P, q.1 = 0) →
    applyInserts counter P M = revRaises counter P ++ M := by
  intro P
  induction P with
  | nil => intro counter M _; simp [applyInserts, revRaises]
  | cons q P' ih =>
      intro counter M hz
      obtain ⟨n, i⟩ := q
      have hn : n = 0 := hz (n, i) (List.mem_cons_self _ _)
      subst hn
      simp only [applyInserts, List.insertIdx_zero, revRaises]
      rw [ih (counter + 1) _ (fun q hq => hz q (List.mem_cons_of_mem _ hq))]
      simp [List.append_assoc]

theorem mkRaise_eq {c1 c2 : Nat} {i1 i2 : Int} (hc : c1 = c2) (hi : i1 = i2) :
    mkRaise c1 i1 = mkRaise c2 i2 := by
  subst hc
  subst hi
  rfl

theorem descList_snoc : ∀ (fuel c : Nat) (lo : Int),
    descList fuel (c + 1) (lo + 1) ++ [mkRaise c lo] = descList (fuel + 1) c lo := by
  intro fuel
  induction fuel with
  | zero =>
      intro c lo
      simp only [descList, List.nil_append, List.cons.injEq, and_true]
      exact mkRaise_eq (by omega) (by omega)
  | succ k ih =>
      intro c lo
      simp only [descList, List.cons_append]
      rw [ih c lo]
      simp only [descList, List.cons.injEq, and_true]
      exact mkRaise_eq (by omega) (by omega)

theorem revRaises_eq_descList : ∀ (fuel c : Nat) (lo : Int),
    revRaises c ((intRangeAux fuel lo).map (fun i => (0, i))) = descList fuel c lo := by
  intro fuel
  induction fuel with
  | zero => intro c lo; rfl
  | succ k ih =>
      intro c lo
      simp only [intRangeAux, List.map_cons, revRaises]
      rw [ih (c + 1) (lo + 1)]
      exact descList_snoc k c lo

theorem revRaises_groupFor (c : Nat) (p a : Line) :
    revRaises c (groupFor 0 p a) =
      if lineKeyword a then descList (p.indent - (a.indent + 1)).toNat c (a.indent + 1) else [] := by
  unfold groupFor
  by_cases hkw : lineKeyword a = true
  · rw [if_pos hkw, if_pos hkw]
    exact revRaises_eq_descList _ _ _
  · rw [if_neg hkw, if_neg hkw]
    rfl

theorem groupsFrom_shift : ∀ (src : List Line) (n : Nat) (p : Line),
    groupsFrom (n + 1) p src = (groupsFrom n p src).map (List.map (fun q => (q.1 + 1, q.2))) := by
  intro src
  induction src with
  | nil => intro n p; rfl
  | cons a rest ih =>
      intro n p
      simp only [groupsFrom, List.map_cons]
      congr 1
      · unfold groupFor
        split
        · rw [List.map_map]
          rfl
        · rfl
      · exact ih (n + 1) a

theorem predP_shift (P : List (Nat × Int)) : predP (P.map (fun q => (q.1 + 1, q.2))) = P := by
  unfold predP
  rw [List.map_map]
  have : ((fun q : Nat × Int => (q.1 - 1, q.2)) ∘ fun q : Nat × Int => (q.1 + 1, q.2)) = id := by
    funext q
    simp
  rw [this, List.map_id]

theorem endGroupFor_shift (n : Nat) (li : Int) :
    (endGroupFor n li).map (fun q => (q.1 + 1, q.2)) = endGroupFor (n + 1) li := by
  unfold endGroupFor
  rw [List.map_map]
  rfl

theorem targetIns_peel (p a : Line) (rest : List Line) :
    targetIns p (a :: rest) =
      (targetIns a rest).map (fun q => (q.1 + 1, q.2)) ++ groupFor 0 p a := by
  unfold targetIns
  simp only [List.map_append, endGroupFor_shift, List.length_cons, List.getLastD_cons]
  rw [List.map_flatten, List.map_reverse, ← groupsFrom_shift]
  simp only [groupsFrom, List.reverse_cons, List.flatten_append, List.flatten_cons,
    List.flatten_nil, List.append_nil, List.append_assoc]

theorem applyInserts_peel (p a : Line) (rest : List Line) (c : Nat) :
    applyInserts c (targetIns p (a :: rest)) (a :: rest) =
      revRaises (c + (targetIns a rest).length) (groupFor 0 p a) ++
        a :: applyInserts c (targetIns a rest) rest := by
  rw [targetIns_peel, applyInserts_append]
  rw [applyInserts_shift _ c a rest (by
    intro q hq
    simp only [List.mem_map] at hq
    obtain ⟨q0, _, hqe⟩ := hq
    subst hqe
    omega)]
  rw [predP_shift]
  rw [applyInserts_zeros _ _ _ (fun q hq => mem_groupFor 0 p a hq)]
  simp

theorem optimize_eq (counter : Nat) (src : List Line) (origLast : Line)
    (hlast : src.getLast? = some origLast)
    (hoff : ∀ l ∈ src, l.offset = 0) :
    optimize counter src = applyInserts counter (targetIns origLast src) src := by
  unfold optimize
  rw [hlast]
  simp only [pass1_eq src 0 origLast 0 hoff]
  rw [show ((intRange 1 ((src.getLastD origLast).indent)).map (fun i => (src.length, i))) =
        endGroupFor src.length ((src.getLastD origLast).indent) from rfl]
  rw [sort_collected_eq origLast src ((src.getLastD origLast).indent)]
  rfl

/-! ## Chains of rejection lines -/

theorem pairOk_of_step {a b : Line} (ht : isTerminal a = true) (hs : b.indent + 1 = a.indent) :
    pairOk a b = true := by
  unfold pairOk
  rw [if_pos (by omega : b.indent < a.indent)]
  rw [ht]
  simp [← hs]

theorem pairOk_of_le {a b : Line} (h : a.indent ≤ b.indent) : pairOk a b = true := by
  unfold pairOk
  rw [if_neg (by omega)]

theorem chainOkB_cons {x : Line} {T : List Line} (hT : chainOkB T = true)
    (hhead : ∀ y, T.head? = some y → pairOk x y = true) : chainOkB (x :: T) = true := by
  cases T with
  | nil => rfl
  | cons y T' =>
      have hp := hhead y rfl
      simp only [chainOkB, hp, hT, Bool.and_self]

theorem chainOkB_descList : ∀ (fuel c : Nat) (lo : Int), chainOkB (descList fuel c lo) = true := by
  intro fuel
  induction fuel with
  | zero => intro c lo; rfl
  | succ k ih =>
      intro c lo
      refine chainOkB_cons (ih c lo) ?_
      intro y hy
      cases k with
      | zero => simp [descList] at hy
      | succ j =>
          simp only [descList, List.head?_cons, Option.some.injEq] at hy
          subst hy
          refine pairOk_of_step (isTerminal_mkRaise _ _) ?_
          simp only [mkRaise_indent]
          omega

theorem chainOkB_descList_append : ∀ (fuel c : Nat) (lo : Int) (N : Line) (M : List Line),
    N.indent + 1 = lo → chainOkB (N :: M) = true →
    chainOkB (descList fuel c lo ++ N :: M) = true := by
  intro fuel
  induction fuel with
  | zero => intro c lo N M _ h2; simpa [descList] using h2
  | succ k ih =>
      intro c lo N M h1 h2
      simp only [descList, List.cons_append]
      refine chainOkB_cons (ih c lo N M h1 h2) ?_
      intro y hy
      cases k with
      | zero =>
          simp only [descList, List.nil_append, List.head?_cons, Option.some.injEq] at hy
          subst hy
          refine pairOk_of_step (isTerminal_mkRaise _ _) ?_
          simp only [mkRaise_indent]
          omega
      | succ j =>
          simp only [descList, List.cons_append, List.head?_cons, Option.some.injEq] at hy
          subst hy
          refine pairOk_of_step (isTerminal_mkRaise _ _) ?_
          simp only [mkRaise_indent]
          omega

theorem descList_getLast : ∀ (fuel c : Nat) (lo : Int), 0 < fuel →
    (descList fuel c lo).getLast? = some (mkRaise c lo) := by
  intro fuel
  induction fuel with
  | zero => intro c lo h; omega
  | succ k ih =>
      intro c lo _
      cases k with
      | zero =>
          simp only [descList, List.getLast?_singleton, Option.some.injEq]
          exact mkRaise_eq (by omega) (by omega)
      | succ j =>
          rw [show descList (j + 1 + 1) c lo =
                mkRaise (c + (j + 1)) (lo + (↑(j + 1) : Int)) :: descList (j + 1) c lo from rfl]
          rw [show descList (j + 1) c lo =
                mkRaise (c + j) (lo + (↑j : Int)) :: descList j c lo from rfl]
          rw [List.getLast?_cons_cons]
          rw [← show descList (j + 1) c lo =
                mkRaise (c + j) (lo + (↑j : Int)) :: descList j c lo from rfl]
          exact ih c lo (by omega)

theorem lastTerminal_append {X Y : List Line} (hY : Y ≠ []) :
    lastTerminal (X ++ Y) = lastTerminal Y := by
  unfold lastTerminal
  rw [List.getLast?_append]
  cases hg : Y.getLast? with
  | none => exact absurd (List.getLast?_eq_none_iff.mp hg) hY
  | some z => rfl

theorem lastTerminal_cons_cons (x y : Line) (l : List Line) :
    lastTerminal (x :: y :: l) = lastTerminal (y :: l) := by
  unfold lastTerminal
  rw [List.getLast?_cons_cons]

theorem wrap_chain (p a : Line) (c' : Nat) (T : List Line) (hT : chainOkB (a :: T) = true) :
    chainOkB (revRaises c' (groupFor 0 p a) ++ a :: T) = true := by
  rw [revRaises_groupFor]
  by_cases hkw : lineKeyword a = true
  · rw [if_pos hkw]
    exact chainOkB_descList_append _ c' _ a T rfl hT
  · rw [if_neg hkw]
    exact hT

theorem wrap_last (p a : Line) (c' : Nat) (T : List Line) (hT : lastTerminal (a :: T) = true) :
    lastTerminal (revRaises c' (groupFor 0 p a) ++ a :: T) = true := by
  rw [lastTerminal_append (by simp : (a :: T) ≠ [])]
  exact hT

theorem wrap_head (p a : Line) (c' : Nat) (T : List Line) :
    ∃ hd tl, revRaises c' (groupFor 0 p a) ++ a :: T = hd :: tl ∧
      ((hd = a ∧ (lineKeyword a = true → p.indent ≤ a.indent + 1)) ∨
       (isTerminal hd = true ∧ hd.indent + 1 = p.indent ∧ a.indent + 1 < p.indent ∧
         lineKeyword a = true)) := by
  rw [revRaises_groupFor]
  by_cases hkw : lineKeyword a = true
  · rw [if_pos hkw]
    by_cases hgap : a.indent + 1 < p.indent
    · obtain ⟨j, hj⟩ : ∃ j, (p.indent - (a.indent + 1)).toNat = j + 1 :=
        ⟨(p.indent - (a.indent + 1)).toNat - 1, by omega⟩
      rw [hj]
      refine ⟨mkRaise (c' + j) (a.indent + 1 + (↑j : Int)),
        descList j c' (a.indent + 1) ++ a :: T, by simp [descList],
        Or.inr ⟨isTerminal_mkRaise _ _, ?_, hgap, hkw⟩⟩
      rw [mkRaise_indent]
      omega
    · have hz : (p.indent - (a.indent + 1)).toNat = 0 := by omega
      rw [hz]
      exact ⟨a, T, rfl, Or.inl ⟨rfl, fun _ => by omega⟩⟩
  · rw [if_neg hkw]
    exact ⟨a, T, rfl, Or.inl ⟨rfl, fun h => absurd h hkw⟩⟩

theorem targetIns_nil (a : Line) : targetIns a [] = endGroupFor 0 a.indent := by
  unfold targetIns groupsFrom
  simp

theorem applyInserts_endGroup_nil (c : Nat) (a : Line) :
    applyInserts c (targetIns a []) [] = descList (a.indent - 1).toNat c 1 := by
  rw [targetIns_nil]
  rw [show (endGroupFor 0 a.indent) = (intRange 1 a.indent).map (fun i => ((0 : Nat), i)) from rfl]
  rw [applyInserts_zeros _ _ _ (fun q hq => (mem_mapRange _ _ _ hq).1)]
  rw [List.append_nil]
  exact revRaises_eq_descList _ _ _

theorem lastRet_cons_cons (x y : Line) (l : List Line) :
    lastRet (x :: y :: l) = lastRet (y :: l) := by
  unfold lastRet
  rw [List.getLast?_cons_cons]

theorem lastRet_elim {l : List Line} (h : lastRet l = true) :
    ∃ z, l.getLast? = some z ∧ startsWithL z.src (chars "return") = true ∧ 1 ≤ z.indent := by
  unfold lastRet at h
  cases hg : l.getLast? with
  | none => rw [hg] at h; cases h
  | some z =>
      rw [hg] at h
      simp only [Bool.and_eq_true, decide_eq_true_eq] at h
      exact ⟨z, rfl, h.1, h.2⟩

theorem lastRet_singleton {a : Line} (h : lastRet [a] = true) :
    startsWithL a.src (chars "return") = true ∧ 1 ≤ a.indent := by
  obtain ⟨z, hz, h1, h2⟩ := lastRet_elim h
  simp only [List.getLast?_singleton, Option.some.injEq] at hz
  subst hz
  exact ⟨h1, h2⟩

theorem shapeOk_cons_cons {x y : Line} {l : List Line} (h : shapeOk (x :: y :: l) = true) :
    lineOk x = true ∧ dedentOk x y = true ∧ shapeOk (y :: l) = true := by
  simp only [shapeOk, Bool.and_eq_true] at h
  exact ⟨h.1.1, h.1.2, h.2⟩

theorem shapeOk_cons_of {x y : Line} {l : List Line} (h1 : lineOk x = true)
    (h2 : dedentOk x y = true) (h3 : shapeOk (y :: l) = true) :
    shapeOk (x :: y :: l) = true := by
  simp only [shapeOk, h1, h2, h3, Bool.and_self]

theorem offset_zero_of_shapeOk : ∀ (l : List Line), shapeOk l = true → ∀ x ∈ l, x.offset = 0 := by
  intro l
  induction l with
  | nil => intro _ x hx; cases hx
  | cons a rest ih =>
      intro h x hx
      rcases List.mem_cons.mp hx with rfl | hx2
      · cases rest with
        | nil => simpa [shapeOk, lineOk] using h
        | cons b rest' =>
            have := (shapeOk_cons_cons h).1
            simpa [lineOk] using this
      · cases rest with
        | nil => cases hx2
        | cons b rest' => exact ih (shapeOk_cons_cons h).2.2 x hx2

theorem dedentOk_dedent {x y : Line} (h : dedentOk x y = true) (hlt : y.indent < x.indent) :
    startsWithL x.src (chars "return") = true ∧ (y.indent + 1 = x.indent ∨ lineKeyword y = true) := by
  unfold dedentOk at h
  rw [if_pos hlt] at h
  simp only [Bool.and_eq_true, Bool.or_eq_true, beq_iff_eq] at h
  exact ⟨h.1, h.2⟩

theorem tail_chain_base (a : Line) (c : Nat)
    (hret : startsWithL a.src (chars "return") = true) (hind : 1 ≤ a.indent) :
    chainOkB (a :: descList (a.indent - 1).toNat c 1) = true := by
  refine chainOkB_cons (chainOkB_descList _ c 1) ?_
  intro y hy
  cases hc : (a.indent - 1).toNat with
  | zero => rw [hc] at hy; simp [descList] at hy
  | succ j =>
      rw [hc] at hy
      simp only [descList, List.head?_cons, Option.some.injEq] at hy
      subst hy
      refine pairOk_of_step (isTerminal_of_return hret) ?_
      rw [mkRaise_indent]
      omega

theorem tail_last_base (a : Line) (c : Nat)
    (hret : startsWithL a.src (chars "return") = true) (hind : 1 ≤ a.indent) :
    lastTerminal (a :: descList (a.indent - 1).toNat c 1) = true := by
  cases hc : (a.indent - 1).toNat with
  | zero =>
      have ha1 : a.indent = 1 := by omega
      unfold lastTerminal
      rw [show descList 0 c 1 = [] from rfl]
      rw [List.getLast?_singleton]
      simp [isTerminal_of_return hret, ha1]
  | succ j =>
      rw [show descList (j + 1) c 1 = mkRaise (c + j) (1 + (↑j : Int)) :: descList j c 1 from rfl]
      rw [lastTerminal_cons_cons]
      rw [← show descList (j + 1) c 1 = mkRaise (c + j) (1 + (↑j : Int)) :: descList j c 1 from rfl]
      unfold lastTerminal
      rw [descList_getLast (j + 1) c 1 (by omega)]
      simp [isTerminal_mkRaise, mkRaise_indent]

theorem mainFastFail : ∀ (rest : List Line) (a p : Line) (c : Nat),
    shapeOk (a :: rest) = true → lastRet (a :: rest) = true →
    chainOkB (applyInserts c (targetIns p (a :: rest)) (a :: rest)) = true ∧
    lastTerminal (applyInserts c (targetIns p (a :: rest)) (a :: rest)) = true ∧
    (∃ hd tl, applyInserts c (targetIns p (a :: rest)) (a :: rest) = hd :: tl ∧
      ((hd = a ∧ (lineKeyword a = true → p.indent ≤ a.indent + 1)) ∨
       (isTerminal hd = true ∧ hd.indent + 1 = p.indent ∧ a.indent + 1 < p.indent ∧
         lineKeyword a = true))) := by
  intro rest
  induction rest with
  | nil =>
      intro a p c hshape hlast
      obtain ⟨hret, hind⟩ := lastRet_singleton hlast
      rw [applyInserts_peel p a [] c, applyInserts_endGroup_nil c a]
      exact ⟨wrap_chain p a _ _ (tail_chain_base a c hret hind),
        wrap_last p a _ _ (tail_last_base a c hret hind),
        wrap_head p a _ _⟩
  | cons b rest' ih =>
      intro a p c hshape hlast
      obtain ⟨hlx, hded, hshape'⟩ := shapeOk_cons_cons hshape
      have hlast' : lastRet (b :: rest') = true := by
        rw [← lastRet_cons_cons a b rest']
        exact hlast
      obtain ⟨ihChain, ihLast, hd, tl, hout, hcase⟩ := ih b a c hshape' hlast'
      rw [applyInserts_peel p a (b :: rest') c]
      have hpair : pairOk a hd = true := by
        rcases hcase with ⟨rfl, hcond⟩ | ⟨hterm, hstep, hgap, _⟩
        · by_cases hlt : hd.indent < a.indent
          · obtain ⟨hretu, hstep2⟩ := dedentOk_dedent hded hlt
            rcases hstep2 with hs | hkwb
            · exact pairOk_of_step (isTerminal_of_return hretu) hs
            · have := hcond hkwb
              exact pairOk_of_step (isTerminal_of_return hretu) (by omega)
          · exact pairOk_of_le (by omega)
        · exact pairOk_of_step
            (isTerminal_of_return (dedentOk_dedent hded (by omega)).1) hstep
      have hTch :
          chainOkB (a :: applyInserts c (targetIns a (b :: rest')) (b :: rest')) = true := by
        refine chainOkB_cons ihChain ?_
        intro y hy
        rw [hout] at hy
        simp only [List.head?_cons, Option.some.injEq] at hy
        subst hy
        exact hpair
      have hTlast :
          lastTerminal (a :: applyInserts c (targetIns a (b :: rest')) (b :: rest')) = true := by
        rw [hout, lastTerminal_cons_cons, ← hout]
        exact ihLast
      exact ⟨wrap_chain p a _ _ hTch, wrap_last p a _ _ hTlast, wrap_head p a _ _⟩

theorem lastRet_of_getLast {l : List Line} {z : Line} (hz : l.getLast? = some z)
    (hret : startsWithL z.src (chars "return") = true) (hind : 1 ≤ z.indent) :
    lastRet l = true := by
  unfold lastRet
  rw [hz]
  simp [hret, hind]

/-- Claim C1: fast-fail guarantee of the optimized matcher source.  For every
source `_render` produces — the `def` header, the optional static lookup, and
any well-shaped rendered decision tree (`treeShape`: offset-free lines whose
scopes close only after a leaf `return`, with multi-level dedents landing on
branch/leaf keyword lines, ending in a leaf `return` inside the body) — the
`optimize` pass yields a line list in which every scope exit passes through
an explicit `return` or `raise NotFound` at every level of nesting it closes
(dedents are single-level and always preceded by a terminal line), and the
whole procedure ends with such a rejection at the function-body level
(`FastFail`): a run on which no branch returns reaches a raised not-found
rather than falling through into a sibling branch or off the end. -/
theorem c1_fast_fail (counter : Nat) (hasStatic hasDynamic : Bool) (treeLines : List Line)
    (hsome : (hasStatic || hasDynamic) = true)
    (htree : hasDynamic = true → treeShape treeLines = true) :
    FastFail (optimize counter (renderLines hasStatic hasDynamic treeLines)) := by
  cases hasDynamic with
  | false =>
      cases hasStatic with
      | false => simp at hsome
      | true =>
          have hsrc : renderLines true false treeLines = defLine :: staticLines := rfl
          rw [hsrc]
          have hlast : (defLine :: staticLines).getLast? =
              some { src := chars "return router.static_routes[parts], None", indent := 2 } := by
            decide
          rw [optimize_eq counter _ _ hlast (by decide)]
          obtain ⟨h1, h2, _⟩ :=
            mainFastFail staticLines defLine
              { src := chars "return router.static_routes[parts], None", indent := 2 } counter
              (by decide) (by decide)
          exact ⟨h1, h2⟩
  | true =>
      have htree2 := htree rfl
      unfold treeShape at htree2
      simp only [Bool.and_eq_true] at htree2
      obtain ⟨tsh, tlr⟩ := htree2
      obtain ⟨z, hz, hzret, hzind⟩ := lastRet_elim tlr
      cases treeLines with
      | nil => cases hz
      | cons t0 ts =>
          cases hasStatic with
          | true =>
              have hsrc : renderLines true true (t0 :: ts) =
                  defLine :: staticLines ++ numLine :: t0 :: ts := rfl
              rw [hsrc]
              have hlastsrc : (defLine :: staticLines ++ numLine :: t0 :: ts).getLast? = some z := by
                simp only [staticLines, List.cons_append, List.nil_append,
                  List.getLast?_cons_cons]
                exact hz
              have hoff : ∀ l ∈ defLine :: staticLines ++ numLine :: t0 :: ts, l.offset = 0 := by
                have hoffTree := offset_zero_of_shapeOk _ tsh
                intro l hl
                rcases List.mem_cons.mp hl with rfl | hl
                · rfl
                · rcases List.mem_cons.mp hl with rfl | hl
                  · rfl
                  · rcases List.mem_cons.mp hl with rfl | hl
                    · rfl
                    · exact hoffTree l hl
              have hshape : shapeOk (defLine :: staticLines ++ numLine :: t0 :: ts) = true := by
                refine shapeOk_cons_of (by decide) (by decide) ?_
                refine shapeOk_cons_of (by decide) (by decide) ?_
                exact shapeOk_cons_of (by decide) (by decide) tsh
              have hlastret : lastRet (defLine :: staticLines ++ numLine :: t0 :: ts) = true :=
                lastRet_of_getLast hlastsrc hzret hzind
              rw [optimize_eq counter _ z hlastsrc hoff]
              obtain ⟨h1, h2, _⟩ :=
                mainFastFail (staticLines ++ numLine :: t0 :: ts) defLine z counter hshape hlastret
              exact ⟨h1, h2⟩
          | false =>
              have hsrc : renderLines false true (t0 :: ts) = defLine :: numLine :: t0 :: ts := rfl
              rw [hsrc]
              have hlastsrc : (defLine :: numLine :: t0 :: ts).getLast? = some z := by
                simp only [List.getLast?_cons_cons]
                exact hz
              have hoff : ∀ l ∈ defLine :: numLine :: t0 :: ts, l.offset = 0 := by
                have hoffTree := offset_zero_of_shapeOk _ tsh
                intro l hl
                rcases List.mem_cons.mp hl with rfl | hl
                · rfl
                · exact hoffTree l hl
              have hshape : shapeOk (defLine :: numLine :: t0 :: ts) = true :=
                shapeOk_cons_of (by decide) (by decide) tsh
              have hlastret : lastRet (defLine :: numLine :: t0 :: ts) = true :=
                lastRet_of_getLast hlastsrc hzret hzind
              rw [optimize_eq counter _ z hlastsrc hoff]
              obtain ⟨h1, h2, _⟩ :=
                mainFastFail (numLine :: t0 :: ts) defLine z counter hshape hlastret
              exact ⟨h1, h2⟩

/-- Witness for C1: the sample one-branch decision tree is well shaped, and
the optimized matcher source rendered from it satisfies the structural
fast-fail property. -/
theorem c1_fast_fail_witness : FastFail (optimize 0 (renderLines true true tlW)) :=
  c1_fast_fail 0 true true tlW (by decide) (fun _ => by decide)
